import Mathlib

/-!
Verification development for the device-comparison screen of the app
repository (src/app/(tabs)/compare.jsx).

The JavaScript source is shallowly embedded as executable Lean functions:

* `cleanHTMLContent`, `extractSpecifications` — the HTML specification
  extractor (regex scan for heading-then-figure-wrapped-table blocks,
  two-cell table rows, markup stripping and whitespace collapsing);
* `renderComparisonTable` — the pure row-building core of the comparison
  table renderer (fixed category order, union of attribute names, sort,
  `N/A` sentinel);
* a discrete-event model of the shared `customDebounce` timer together
  with `handleSearchInputChange` and the firing of `searchPosts`;
* a state model of `fetchDeviceDetails` and the navigation-parameter
  reconciliation effect.

Strings are processed as `List Char`; machine behaviour (DOM parsing via
`getElementsByTagName`, JS regex backtracking) is reproduced by explicit
scanners that follow the source constructs, as documented at each
definition.
-/

namespace CompareApp

/-! ## Character and whitespace utilities -/

/-- JS regex `\s` and `String.prototype.trim` whitespace class, restricted
to the code points the app can realistically see (ASCII whitespace plus
NBSP, line/paragraph separators and BOM). -/
def isJsWS (c : Char) : Bool :=
  c = ' ' || c = '\t' || c = '\n' || c = '\r' ||
  c = '\x0b' || c = '\x0c' || c = ' ' ||
  c = ' ' || c = ' ' || c = '﻿'

/-- Skip a (possibly empty) run of whitespace: the `\s*` pieces of the
extraction regex. -/
def skipWS (l : List Char) : List Char := l.dropWhile isJsWS

/-- Scan to the first `'>'` and return the remainder after it: the
`[^>]*>` pieces of the extraction regex (zero or more non-`>` characters,
then the closing bracket). -/
def gtSearch : List Char → Option (List Char)
  | [] => none
  | c :: rest => if c = '>' then some rest else gtSearch rest

theorem gtSearch_length_le : ∀ {l r : List Char}, gtSearch l = some r → r.length ≤ l.length := by
  intro l
  induction l with
  | nil => intro r h; simp [gtSearch] at h
  | cons x xs ih =>
    intro r h
    simp only [gtSearch] at h
    split at h
    · cases h; simp
    · exact Nat.le_trans (ih h) (by simp)

/-- Remainder of a tag-like run `<[^>]+>` starting right after a `'<'`:
at least one non-`>` character followed by `'>'`. -/
def tagRemainder : List Char → Option (List Char)
  | [] => none
  | c :: rest => if c = '>' then none else gtSearch rest

theorem tagRemainder_length_le : ∀ {l r : List Char}, tagRemainder l = some r → r.length ≤ l.length := by
  intro l r h
  cases l with
  | nil => simp [tagRemainder] at h
  | cons c rest =>
    simp only [tagRemainder] at h
    split at h
    · cases h
    · exact Nat.le_trans (gtSearch_length_le h) (by simp)

/-- `content.replace(/<[^>]+>/g, '')` from `cleanHTMLContent`: drop every
non-overlapping leftmost tag-like run. -/
def stripTagsF : Nat → List Char → List Char
  | 0, _ => []
  | _ + 1, [] => []
  | fuel + 1, c :: rest =>
    if c = '<' then
      match tagRemainder rest with
      | some after => stripTagsF fuel after
      | none => c :: stripTagsF fuel rest
    else c :: stripTagsF fuel rest

/-- Fuel (the input length) bounds the recursion so that the scan stays
structurally recursive; each step consumes at least one character, so the
input length is always enough fuel. -/
def stripTags (l : List Char) : List Char := stripTagsF l.length l

/-- `replace(/\s+/g, ' ')` from `cleanHTMLContent`: collapse each maximal
run of whitespace to a single space. The flag records whether the previous
character was part of a whitespace run already emitted. -/
def collapseAux : Bool → List Char → List Char
  | _, [] => []
  | prevWs, c :: rest =>
    if isJsWS c then
      if prevWs then collapseAux true rest
      else ' ' :: collapseAux true rest
    else c :: collapseAux false rest

def collapseWS (l : List Char) : List Char := collapseAux false l

/-- `String.prototype.trim`. -/
def trimWS (l : List Char) : List Char :=
  ((l.dropWhile isJsWS).reverse.dropWhile isJsWS).reverse

/-- `cleanHTMLContent` on character lists: strip tag-like runs, collapse
whitespace, trim. -/
def cleanL (l : List Char) : List Char := trimWS (collapseWS (stripTags l))

/-- `cleanHTMLContent(content)` from compare.jsx (the non-string input
guard returns the empty string; Lean strings are always strings). -/
def cleanHTMLContent (s : String) : String := ⟨cleanL s.toList⟩

/-! ## The extraction regex

`extractSpecifications` drives the JS regex

`/<h[2-4][^>]*>([\s\S]*?)<\/h[2-4]>\s*<figure[^>]*>\s*<table[^>]*>([\s\S]+?)<\/table>\s*<\/figure>/g`

with `exec` in a loop.  The scanner below reproduces its semantics:
`[^>]*>` is `gtSearch` (the greedy run cannot cross the first `>`that
follows, so no backtracking arises), `\s*` is `skipWS` (the following
literal is never whitespace), and the two lazy groups are per-character
minimal searches in which a failure of the later literals extends the
group — exactly the engine backtracking order. -/

/-- Strip an expected literal prefix, returning the remainder. -/
def dropPrefixL : List Char → List Char → Option (List Char)
  | [], l => some l
  | _ :: _, [] => none
  | p :: ps, c :: cs => if p = c then dropPrefixL ps cs else none

/-- The digit class `[2-4]` of the heading levels h2–h4. -/
def isHdigit (c : Char) : Bool := c = '2' || c = '3' || c = '4'

/-- After the lazy heading group: `<\/h[2-4]>\s*<figure[^>]*>\s*<table[^>]*>`.
Returns the remainder right after the table opening tag. -/
def pHeadClose (l : List Char) : Option (List Char) :=
  match l with
  | '<' :: '/' :: 'h' :: d :: '>' :: rest =>
    if isHdigit d then
      match dropPrefixL "<figure".toList (skipWS rest) with
      | some r2 =>
        match gtSearch r2 with
        | some r3 =>
          match dropPrefixL "<table".toList (skipWS r3) with
          | some r5 => gtSearch r5
          | none => none
        | none => none
      | none => none
    else none
  | _ => none

/-- After the lazy table group: `<\/table>\s*<\/figure>`.  Returns the
remainder after the figure closing tag, where the whole match ends. -/
def pTableClose (l : List Char) : Option (List Char) :=
  match dropPrefixL "</table>".toList l with
  | some r =>
    match dropPrefixL "</figure>".toList (skipWS r) with
    | some r2 => some r2
    | none => none
  | none => none

/-- Lazy scan: find the least split `l = pre ++ s` with `p s = some a`,
returning the group `pre` and the witness `a`.  This is the per-character
growth of a lazy regex group under backtracking. -/
def lazyScan (p : List Char → Option α) : List Char → Option (List Char × α)
  | [] =>
    match p [] with
    | some a => some ([], a)
    | none => none
  | c :: rest =>
    match p (c :: rest) with
    | some a => some ([], a)
    | none =>
      match lazyScan p rest with
      | some (pre, a) => some (c :: pre, a)
      | none => none

/-- The part of the pattern after the heading opening tag: lazy group 2
(at least one character) followed by `pTableClose`.  Given the remainder
after `<table[^>]*>`, returns the table group and the remainder after the
whole match. -/
def pAfterHeading (l : List Char) : Option (List Char × List Char) :=
  match pHeadClose l with
  | some r =>
    match r with
    | [] => none
    | c :: rest2 =>
      match lazyScan pTableClose rest2 with
      | some (pre, after) => some (c :: pre, after)
      | none => none
  | none => none

/-- Try the whole pattern anchored at the current position: heading
opening tag `<h[2-4][^>]*>`, then the lazy heading group resolved by
`pAfterHeading`.  Returns (heading group, table group, remainder after
the match). -/
def matchSpecBlock (l : List Char) : Option (List Char × List Char × List Char) :=
  match l with
  | '<' :: 'h' :: d :: rest =>
    if isHdigit d then
      match gtSearch rest with
      | some afterOpen =>
        match lazyScan pAfterHeading afterOpen with
        | some (heading, tbl, after) => some (heading, tbl, after)
        | none => none
      | none => none
    else none
  | _ => none

/-- The `while ((matches = regex.exec(content)) !== null)` loop: find the
leftmost match from the current position, emit its two groups, continue
after the match.  Fuel (the length of the input) bounds the recursion;
each step consumes at least one character. -/
def scanBlocksF : Nat → List Char → List (List Char × List Char)
  | 0, _ => []
  | _ + 1, [] => []
  | fuel + 1, c :: rest =>
    match matchSpecBlock (c :: rest) with
    | some (h, t, after) => (h, t) :: scanBlocksF fuel after
    | none => scanBlocksF fuel rest

def scanBlocks (l : List Char) : List (List Char × List Char) :=
  scanBlocksF l.length l

/-! ## DOM table scan

The source wraps the second regex group in a table element, feeds it to
`HTMLParser.DOMParser` and walks `getElementsByTagName('tr')` /
`getElementsByTagName('td')`, reading `textContent` of each cell.  The
scanner below models that walk directly on the second regex group (the
added table wrapper contains no rows): an element block is an opening tag
(tag name followed by `>` or by whitespace and attributes) up to the
first matching closing tag, and `textContent` composed with
`cleanHTMLContent` is `cleanL` of the raw inner characters, since
cleaning strips the nested markup itself. -/

/-- Find the next opening tag of `tag`, returning the remainder after it. -/
def findOpen (tag : List Char) : List Char → Option (List Char)
  | [] => none
  | c :: rest =>
    if c = '<' then
      match dropPrefixL tag rest with
      | some ('>' :: r) => some r
      | some (c2 :: r) => if isJsWS c2 then gtSearch (c2 :: r) else findOpen tag rest
      | some [] => none
      | none => findOpen tag rest
    else findOpen tag rest

/-- Split at the first closing tag `</tag>`: inner content before it and
remainder after it. -/
def splitAtClose (tag : List Char) : List Char → Option (List Char × List Char)
  | [] => none
  | c :: rest =>
    if c = '<' then
      match dropPrefixL ('/' :: tag ++ ['>']) rest with
      | some r => some ([], r)
      | none =>
        match splitAtClose tag rest with
        | some (pre, after) => some (c :: pre, after)
        | none => none
    else
      match splitAtClose tag rest with
      | some (pre, after) => some (c :: pre, after)
      | none => none

/-- All sibling element blocks of `tag`: inner contents in document
order.  An unclosed final element extends to the end of the input (the
DOM parser closes it at the end of the fragment). -/
def parseBlocksF (tag : List Char) : Nat → List Char → List (List Char)
  | 0, _ => []
  | fuel + 1, l =>
    match findOpen tag l with
    | none => []
    | some afterOpen =>
      match splitAtClose tag afterOpen with
      | some (inner, after) => inner :: parseBlocksF tag fuel after
      | none => [afterOpen]

def parseBlocks (tag : List Char) (l : List Char) : List (List Char) :=
  parseBlocksF tag l.length l

def trTag : List Char := ['t', 'r']

def tdTag : List Char := ['t', 'd']

/-- One extracted row: `{ specification, value }` in the source. -/
structure SpecEntry where
  specification : String
  value : String
deriving DecidableEq, Repr

/-- The specification map: category name to extracted rows, in JS object
insertion order. -/
abbrev SpecMap : Type := List (String × List SpecEntry)

def cleanS (l : List Char) : String := ⟨cleanL l⟩

/-- The body of the row loop: a row contributes an entry exactly when it
has exactly two cells (`cells.length === 2`), with both cells cleaned. -/
def rowEntry (cells : List (List Char)) : Option SpecEntry :=
  match cells with
  | [c1, c2] => some { specification := cleanS c1, value := cleanS c2 }
  | _ => none

/-- All entries of one matched table (`categoryDetails` in the source). -/
def rowEntries (tableInner : List Char) : List SpecEntry :=
  (parseBlocks trTag tableInner).filterMap (fun r => rowEntry (parseBlocks tdTag r))

/-- `specifications[category] = categoryDetails`: JS object assignment
replaces the value of an existing key in place and appends a new key. -/
def insertOrReplace (m : SpecMap) (k : String) (v : List SpecEntry) : SpecMap :=
  match m with
  | [] => [(k, v)]
  | (k2, v2) :: rest =>
    if k2 = k then (k2, v) :: rest else (k2, v2) :: insertOrReplace rest k v

/-- Fold the matched blocks into the specification object: a block whose
table yields no valid row is dropped, and duplicate category names
overwrite (last match wins). -/
def buildSpecMap : List (List Char × List Char) → SpecMap → SpecMap
  | [], acc => acc
  | (h, t) :: rest, acc =>
    let category := cleanS h
    let details := rowEntries t
    buildSpecMap rest (if details.isEmpty then acc else insertOrReplace acc category details)

/-- `extractSpecifications(content)` from compare.jsx. -/
def extractSpecifications (content : String) : SpecMap :=
  buildSpecMap (scanBlocks content.toList) []

/-- True when the input contains the characters of a figure opening tag
as a contiguous run.  Every match of the extraction regex contains the
literal `<figure`, so a body on which this is false yields no block. -/
def hasFigureTag : List Char → Bool
  | [] => false
  | c :: rest =>
    (dropPrefixL "<figure".toList (c :: rest)).isSome || hasFigureTag rest

/-! ## Comparison table builder

`renderComparisonTable` in the source mixes the row computation with
React markup.  The definitions below are its data core: the fixed
category list, the union-and-sort of attribute names (a JS `Set` filled
in insertion order, then `Array.from(...).sort()`), the per-category
filter, and the `N/A` lookup. -/

/-- The hardcoded display order of categories. -/
def categoriesList : List String :=
  ["General", "Display", "Hardware", "Camera", "Software",
   "Connectivity", "Sensors", "Battery"]

/-- `deviceSpecMap[category] || []`. -/
def getCat (m : SpecMap) (category : String) : List SpecEntry :=
  (m.lookup category).getD []

/-- The attribute names of one category of one device. -/
def catNames (m : SpecMap) (category : String) : List String :=
  (getCat m category).map (·.specification)

/-- `Set.prototype.add`: keep insertion order, ignore duplicates. -/
def addName (acc : List String) (n : String) : List String :=
  if n ∈ acc then acc else acc ++ [n]

/-- One iteration of the `allSpecs` collection loop: the names of device
1 for the category, then those of device 2. -/
def collectStep (d1 d2 : SpecMap) (acc : List String) (category : String) : List String :=
  (catNames d2 category).foldl addName ((catNames d1 category).foldl addName acc)

/-- The `allSpecs` set: for each fixed category, first the names of
device 1, then the names of device 2. -/
def collectNames (d1 d2 : SpecMap) : List String :=
  categoriesList.foldl (collectStep d1 d2) []

/-- `Array.from(allSpecs).sort()`: the collected names in lexicographic
order (`sortedAllSpecs` in the source). -/
def sortedAllSpecs (d1 d2 : SpecMap) : List String :=
  (collectNames d1 d2).insertionSort (· ≤ ·)

/-- `(deviceSpecMap[category] || []).some(s => s.specification === specName)`. -/
def hasName (m : SpecMap) (category specName : String) : Bool :=
  (getCat m category).any (fun s => s.specification = specName)

/-- `getSpecValue` from the source: the value of the named entry, or the
sentinel. -/
def getSpecValue (m : SpecMap) (category specName : String) : String :=
  match (getCat m category).find? (fun s => s.specification = specName) with
  | some e => e.value
  | none => "N/A"

/-- One rendered comparison row. -/
structure CompRow where
  attr : String
  valueA : String
  valueB : String
deriving DecidableEq, Repr

/-- The pure row set of `renderComparisonTable`: per fixed category, the
sorted union of attribute names in use, skipping categories empty in both
devices. -/
def renderComparisonTable (d1 d2 : SpecMap) : List (String × List CompRow) :=
  categoriesList.filterMap (fun category =>
    let inUse := (sortedAllSpecs d1 d2).filter
      (fun n => hasName d1 category n || hasName d2 category n)
    if inUse.isEmpty then none
    else some (category, inUse.map (fun n =>
      { attr := n
        valueA := getSpecValue d1 category n
        valueB := getSpecValue d2 category n })))

/-! ## Debounced search model

`customDebounce` stores its timeout id in `debounceTimeoutRefs.current`
keyed by `func.name`; `debouncedSearchHandler` passes one fixed callback,
so the whole screen shares a single timer slot: scheduling clears any
pending timer.  The model below runs a timeline of text-input events
(time, text, slot index) through `handleSearchInputChange`; a pending
timer fires as soon as the timeline reaches its deadline, and any timer
still pending when the timeline ends fires afterwards.  `searchPosts` is
the only network action and appends the query it was fired with to
`calls`; the responding result list comes from the environment `env`. -/

/-- JS `!text.trim()`: the string is empty or all whitespace. -/
def blankStr (s : String) : Bool := s.toList.all isJsWS

/-- The shared screen search state: the single debounce timer slot
(deadline and captured query), `currentSearchResults` (titles),
the log of issued `searchPosts` network calls, and the two
`searchQueries`. -/
structure SearchState where
  pending : Option (Nat × String)
  results : List String
  calls : List String
  query0 : String
  query1 : String
deriving DecidableEq, Repr

def initialSearchState : SearchState :=
  { pending := none, results := [], calls := [], query0 := "", query1 := "" }

/-- The debounced callback body reaching `searchPosts(query)`: an empty
query clears the results without a network call, otherwise one search
call is issued and the results replaced by the response. -/
def firePending (env : String → List String) (s : SearchState) : SearchState :=
  match s.pending with
  | none => s
  | some (_, q) =>
    if blankStr q then { s with pending := none, results := [] }
    else { s with pending := none, results := env q, calls := s.calls ++ [q] }

/-- Let the pending timer fire if its deadline has passed. -/
def fireIfDue (env : String → List String) (now : Nat) (s : SearchState) : SearchState :=
  match s.pending with
  | some (deadline, _) => if deadline ≤ now then firePending env s else s
  | none => s

def setQuery (s : SearchState) (slot : Bool) (text : String) : SearchState :=
  if slot then { s with query1 := text } else { s with query0 := text }

/-- `handleSearchInputChange(text, index)`: store the text; non-blank
text re-arms the shared debounce timer (`clearTimeout` then `setTimeout`
with the fixed 500ms delay), blank text clears the shared results
immediately and leaves any pending timer untouched. -/
def handleSearchInputChange (delay now : Nat) (text : String) (slot : Bool)
    (s : SearchState) : SearchState :=
  let s2 := setQuery s slot text
  if blankStr text then { s2 with results := [] }
  else { s2 with pending := some (now + delay, text) }

/-- Run a time-ordered list of input events, firing due timers between
events and flushing the last pending timer at the end of the timeline. -/
def runSearchEvents (env : String → List String) (delay : Nat) :
    List (Nat × String × Bool) → SearchState → SearchState
  | [], s => firePending env s
  | (t, text, slot) :: rest, s =>
    runSearchEvents env delay rest
      (handleSearchInputChange delay t text slot (fireIfDue env t s))

/-- Consecutive events all arrive inside the debounce window of their
predecessor. -/
def gapsOk (delay : Nat) : List (Nat × String × Bool) → Bool
  | (t1, _) :: (t2, x2, s2) :: rest =>
    decide (t2 < t1 + delay) && gapsOk delay ((t2, x2, s2) :: rest)
  | _ => true

/-- The text of the last event of a timeline. -/
def lastText : List (Nat × String × Bool) → String
  | [] => ""
  | [(_, x, _)] => x
  | _ :: rest => lastText rest

/-! ## Device selection and reconciliation model

`fetchDeviceDetails` and the navigation-parameter reconciliation effect
of the source, collapsed to their sequential effect on the screen state.
The network is the environment `envD`: `some` is a successful detail
response, `none` covers transport errors, API errors and a slug that
resolves to no post — all three take the same branch in the source
(`selectedDevices[index]` is reset to null and the loading flag
cleared).  Reads inside one effect run see the render snapshot (React
state closures), while updates accumulate functionally; each returned
list is the log of network calls issued by slugs. -/

structure Device where
  slug : String
  title : String
  content : String
deriving DecidableEq, Repr

/-- The comparison screen state: the slug-keyed detail cache, the two
selections, the two loading flags, and the two navigation parameters
(`device1`, `device2`). -/
structure CompareState where
  cache : List (String × Device)
  selected0 : Option Device
  selected1 : Option Device
  fetching0 : Bool
  fetching1 : Bool
  param1 : Option String
  param2 : Option String
deriving DecidableEq, Repr

def getParam (s : CompareState) (slot : Bool) : Option String :=
  if slot then s.param2 else s.param1

def getSelected (s : CompareState) (slot : Bool) : Option Device :=
  if slot then s.selected1 else s.selected0

def getFetching (s : CompareState) (slot : Bool) : Bool :=
  if slot then s.fetching1 else s.fetching0

def setSelected (s : CompareState) (slot : Bool) (d : Option Device) : CompareState :=
  if slot then { s with selected1 := d } else { s with selected0 := d }

def setFetching (s : CompareState) (slot : Bool) (b : Bool) : CompareState :=
  if slot then { s with fetching1 := b } else { s with fetching0 := b }

/-- The cache spread `{ ...prev, [slug]: post }`. -/
def cacheInsert (cache : List (String × Device)) (slug : String) (d : Device) :
    List (String × Device) :=
  match cache with
  | [] => [(slug, d)]
  | (k, v) :: rest =>
    if k = slug then (k, d) :: rest else (k, v) :: cacheInsert rest slug d

/-- `fetchDeviceDetails(deviceSlug, index)`.  `snapCache` is the cache
closure captured at render time; a hit resolves without a network call.
On a miss the loading flag is raised, one network call issued, and in
the `finally` block the flag is cleared again; a failed or empty
response resets the selection to null. -/
def fetchDeviceDetails (envD : String → Option Device)
    (snapCache : List (String × Device)) (slug : String) (slot : Bool)
    (cur : CompareState) : CompareState × List String :=
  match snapCache.lookup slug with
  | some d => (setSelected cur slot (some d), [])
  | none =>
    match envD slug with
    | some post =>
      (setFetching (setSelected { cur with cache := cacheInsert cur.cache slug post }
        slot (some post)) slot false, [slug])
    | none => (setFetching (setSelected cur slot none) slot false, [slug])

/-- One arm of the reconciliation effect, for one slot: a parameter slug
differing from (or missing in) the current selection triggers a detail
fetch; an absent parameter with a live selection clears the slot.
Conditions read the snapshot `snap`; updates apply to `cur`. -/
def reconcileSlot (envD : String → Option Device) (snap : CompareState)
    (slot : Bool) (cur : CompareState) : CompareState × List String :=
  match getParam snap slot with
  | some slug =>
    match getSelected snap slot with
    | none => fetchDeviceDetails envD snap.cache slug slot cur
    | some d =>
      if d.slug = slug then (cur, [])
      else fetchDeviceDetails envD snap.cache slug slot cur
  | none =>
    match getSelected snap slot with
    | some _ => (setSelected cur slot none, [])
    | none => (cur, [])

/-- The reconciliation effect: both slots processed in order against the
same snapshot. -/
def reconcile (envD : String → Option Device) (s : CompareState) :
    CompareState × List String :=
  let r1 := reconcileSlot envD s false s
  let r2 := reconcileSlot envD s true r1.1
  (r2.1, r1.2 ++ r2.2)

/-- A slot agrees with its navigation parameter: a parameter slug is
matched by the selected device, and an absent parameter by an empty
slot. -/
def consistentSlot (s : CompareState) (slot : Bool) : Bool :=
  match getParam s slot, getSelected s slot with
  | some slug, some d => d.slug = slug
  | none, none => true
  | _, _ => false

def consistent (s : CompareState) : Bool :=
  consistentSlot s false && consistentSlot s true

/-! ## Concrete fixtures used by witnesses and scenarios -/

def phoneA : Device := { slug := "phone-a", title := "Phone A", content := "" }

def phoneB : Device := { slug := "phone-b", title := "Phone B", content := "" }

/-- Parameters device1 = phone-a, device2 removed, while slot 1 still
holds phone-b: the state right after the second parameter disappears. -/
def c6State : CompareState :=
  { cache := [("phone-a", phoneA), ("phone-b", phoneB)]
    selected0 := some phoneA
    selected1 := some phoneB
    fetching0 := false
    fetching1 := false
    param1 := some "phone-a"
    param2 := none }

/-- A state whose slots both agree with their parameters. -/
def c6Consistent : CompareState :=
  { cache := [("phone-a", phoneA)]
    selected0 := some phoneA
    selected1 := none
    fetching0 := false
    fetching1 := false
    param1 := some "phone-a"
    param2 := none }

/-- Parameter device1 = phone-a with nothing selected and nothing cached:
the state on which a detail fetch for phone-a is about to run. -/
def c5State : CompareState :=
  { cache := []
    selected0 := none
    selected1 := none
    fetching0 := false
    fetching1 := false
    param1 := some "phone-a"
    param2 := none }

/-- A network that fails (or returns no post) for every slug. -/
def failEnv : String → Option Device := fun _ => none

/-- A search backend knowing one phone. -/
def envIp : String → List String := fun q => if q = "ip" then ["iPhone 15"] else []

/-! ## Reconciliation lemmas -/

/-- A slot that agrees with its parameter is left untouched by its
reconciliation arm, and no network call is issued for it. -/
theorem reconcileSlot_consistent (envD : String → Option Device)
    (snap cur : CompareState) (slot : Bool)
    (h : consistentSlot snap slot = true) :
    reconcileSlot envD snap slot cur = (cur, []) := by
  unfold consistentSlot at h
  unfold reconcileSlot
  cases hp : getParam snap slot with
  | none =>
    cases hs : getSelected snap slot with
    | none => simp
    | some d => rw [hp, hs] at h; simp at h
  | some slug =>
    cases hs : getSelected snap slot with
    | none => rw [hp, hs] at h; simp at h
    | some d =>
      rw [hp, hs] at h
      simp only [decide_eq_true_eq] at h
      simp [h]

end CompareApp

namespace CompareApp

/-- C1: extracting the single heading-plus-figure-wrapped-table body
yields exactly one category, Display, holding the single entry with
attribute Size and value 6.1 in, both markup-stripped and
whitespace-collapsed. -/
theorem claim_C1 :
    extractSpecifications
        "<h3>Display</h3><figure><table><tr><td>Size</td><td>6.1 in</td></tr></table></figure>"
      = [("Display", [{ specification := "Size", value := "6.1 in" }])] := by
  decide

/-- C5: on a failed detail fetch the loading flag ends cleared and the
slot ends empty, as the claim states; but the claim of no automatic
retry fails on the code: the reconciliation effect re-runs after the
failure (its dependency array contains the selections, which are
replaced by a fresh array), finds the parameter slug still unselected,
and issues the network call for phone-a again — every run of the effect
repeats the fetch.  The first conjunct shows one failing run returns to
the same state while logging the call; the second shows the follow-up
run issues the same call again. -/
theorem claim_C5 :
    reconcile failEnv c5State = (c5State, ["phone-a"])
    ∧ (reconcile failEnv (reconcile failEnv c5State).1).2 = ["phone-a"] := by
  decide

/-- C6: reconciliation over a state whose slots both agree with the
navigation parameters performs no network call and leaves the state
unchanged; and in the scenario where device2 disappeared while slot 1
still holds phone-b, reconciliation clears slot 1 and issues no network
call at all (slot 0 is already consistent). -/
theorem claim_C6 :
    (∀ (envD : String → Option Device) (s : CompareState),
        consistent s = true → reconcile envD s = (s, []))
    ∧ reconcile failEnv c6State = ({ c6State with selected1 := none }, []) := by
  constructor
  · intro envD s h
    simp only [consistent, Bool.and_eq_true] at h
    simp [reconcile, reconcileSlot_consistent envD s s false h.1,
      reconcileSlot_consistent envD s s true h.2]
  · decide

theorem claim_C6_witness :
    reconcile failEnv c6Consistent = (c6Consistent, []) :=
  claim_C6.1 failEnv c6Consistent (by decide)

/-! ## Debounce lemmas -/

/-- A timer whose deadline has not been reached does not fire. -/
theorem fireIfDue_not_due (env : String → List String) (t : Nat) (s : SearchState)
    (h : ∀ dl q, s.pending = some (dl, q) → t < dl) :
    fireIfDue env t s = s := by
  unfold fireIfDue
  cases hp : s.pending with
  | none => rfl
  | some p =>
    obtain ⟨dl, q⟩ := p
    have := h dl q hp
    simp [Nat.not_le.mpr this]

theorem setQuery_fields (s : SearchState) (slot : Bool) (text : String) :
    (setQuery s slot text).pending = s.pending
    ∧ (setQuery s slot text).results = s.results
    ∧ (setQuery s slot text).calls = s.calls := by
  cases slot <;> simp [setQuery]

theorem runSearchEvents_nil (env : String → List String) (delay : Nat) (s : SearchState) :
    runSearchEvents env delay [] s = firePending env s := rfl

theorem runSearchEvents_cons (env : String → List String) (delay t : Nat)
    (text : String) (slot : Bool) (rest : List (Nat × String × Bool)) (s : SearchState) :
    runSearchEvents env delay ((t, text, slot) :: rest) s
      = runSearchEvents env delay rest
          (handleSearchInputChange delay t text slot (fireIfDue env t s)) := rfl

/-- A non-blank input stores the text and re-arms the shared timer. -/
theorem handle_nonblank (delay now : Nat) (text : String) (slot : Bool)
    (s : SearchState) (h : blankStr text = false) :
    handleSearchInputChange delay now text slot s
      = { setQuery s slot text with pending := some (now + delay, text) } := by
  unfold handleSearchInputChange
  rw [if_neg (by simp [h])]

/-- A blank input empties the results and touches nothing else. -/
theorem handle_blank (delay now : Nat) (text : String) (slot : Bool)
    (s : SearchState) (h : blankStr text = true) :
    handleSearchInputChange delay now text slot s
      = { setQuery s slot text with results := [] } := by
  unfold handleSearchInputChange
  rw [if_pos h]

theorem firePending_some (env : String → List String) (s : SearchState)
    (dl : Nat) (q : String) (hp : s.pending = some (dl, q)) (hq : blankStr q = false) :
    firePending env s = { s with pending := none, results := env q, calls := s.calls ++ [q] } := by
  unfold firePending
  rw [hp]
  simp [hq]

/-- Main debounce invariant: over a timeline of non-blank inputs each
arriving inside the window of its predecessor, starting from a state
whose pending timer (if any) is not yet due, exactly the final text
reaches `searchPosts`. -/
theorem runSearchEvents_within (env : String → List String) (delay : Nat) :
    ∀ (rest : List (Nat × String × Bool)) (t : Nat) (x : String) (b : Bool) (s : SearchState),
      blankStr x = false →
      (∀ e ∈ rest, blankStr e.2.1 = false) →
      gapsOk delay ((t, x, b) :: rest) = true →
      (∀ dl q, s.pending = some (dl, q) → t < dl) →
      (runSearchEvents env delay ((t, x, b) :: rest) s).calls
        = s.calls ++ [lastText ((t, x, b) :: rest)] := by
  intro rest
  induction rest with
  | nil =>
    intro t x b s hx _ _ hp
    rw [runSearchEvents_cons, fireIfDue_not_due env t s hp,
      handle_nonblank delay t x b s hx, runSearchEvents_nil,
      firePending_some env _ (t + delay) x rfl hx]
    simp [lastText, (setQuery_fields s b x).2.2]
  | cons e rest ih =>
    intro t x b s hx hb hg hp
    obtain ⟨t2, x2, b2⟩ := e
    simp only [gapsOk, Bool.and_eq_true, decide_eq_true_eq] at hg
    rw [runSearchEvents_cons, fireIfDue_not_due env t s hp,
      handle_nonblank delay t x b s hx]
    rw [show (lastText ((t, x, b) :: (t2, x2, b2) :: rest)) = lastText ((t2, x2, b2) :: rest) from rfl]
    rw [ih t2 x2 b2 _ (hb (t2, x2, b2) (List.mem_cons_self _ _))
      (fun e he => hb e (List.mem_cons_of_mem _ he)) hg.2
      (by intro dl q hq; simp only at hq; injection hq with hq2; injection hq2 with h3 h4; omega)]
    rw [(setQuery_fields s b x).2.2]

/-- C4: a rapid sequence of non-blank keystrokes, each arriving within
the debounce delay of its predecessor, issues exactly one searchPosts
network call, carrying the text of the last keystroke; all superseded
timers are cancelled and never fire. -/
theorem claim_C4 (env : String → List String) (delay : Nat)
    (events : List (Nat × String × Bool))
    (hne : events ≠ [])
    (hblank : ∀ e ∈ events, blankStr e.2.1 = false)
    (hgaps : gapsOk delay events = true) :
    (runSearchEvents env delay events initialSearchState).calls = [lastText events] := by
  cases events with
  | nil => exact absurd rfl hne
  | cons e rest =>
    obtain ⟨t, x, b⟩ := e
    have := runSearchEvents_within env delay rest t x b initialSearchState
      (hblank (t, x, b) (List.mem_cons_self _ _))
      (fun e he => hblank e (List.mem_cons_of_mem _ he)) hgaps
      (by intro dl q h; simp [initialSearchState] at h)
    simpa [initialSearchState] using this

theorem claim_C4_witness :
    (runSearchEvents envIp 500
        [(0, "ip", false), (100, "iph", false), (200, "ipho", false)]
        initialSearchState).calls
      = [lastText [(0, "ip", false), (100, "iph", false), (200, "ipho", false)]] :=
  claim_C4 envIp 500 _ (by decide) (by decide) (by decide)

/-- C9 counterexample: after the keystroke ip at time 0 the text is
cleared at time 100, inside the 500ms window; the claim says the result
list then stays empty until a new non-empty input, but the pending timer
armed by the first keystroke is not cancelled by the clearing branch and
fires at time 500, repopulating the shared result list. -/
theorem claim_C9_counterexample :
    (runSearchEvents envIp 500 [(0, "ip", false), (100, "", false)]
      initialSearchState).results ≠ [] := by
  decide

/-- C9 (amended): clearing a search input synchronously empties the
shared result list with no debounced action for the clear itself (the
pending timer and the call log are untouched), and the list stays empty
under further clears when no debounce timer is pending; a timer armed
by an earlier non-blank keystroke survives the clear and may repopulate
the list when it fires. -/
theorem claim_C9 (env : String → List String) (delay now : Nat) (slot : Bool)
    (s : SearchState) :
    ((handleSearchInputChange delay now "" slot s).results = []
      ∧ (handleSearchInputChange delay now "" slot s).pending = s.pending
      ∧ (handleSearchInputChange delay now "" slot s).calls = s.calls)
    ∧ (∀ events : List (Nat × String × Bool),
        (∀ e ∈ events, blankStr e.2.1 = true) →
        s.pending = none → s.results = [] →
        (runSearchEvents env delay events s).results = []) := by
  constructor
  · rw [handle_blank delay now "" slot s (by decide)]
    exact ⟨rfl, (setQuery_fields s slot "").1, (setQuery_fields s slot "").2.2⟩
  · intro events
    induction events generalizing s with
    | nil =>
      intro _ hpend hres
      rw [runSearchEvents_nil]
      unfold firePending
      rw [hpend]
      exact hres
    | cons e rest ih =>
      intro hb hpend hres
      obtain ⟨t, x, sl⟩ := e
      rw [runSearchEvents_cons,
        fireIfDue_not_due env t s (by intro dl q hq; rw [hpend] at hq; cases hq),
        handle_blank delay t x sl s (hb (t, x, sl) (List.mem_cons_self _ _))]
      exact ih _ (fun e he => hb e (List.mem_cons_of_mem _ he))
        (by simpa using (setQuery_fields s sl x).1.trans hpend) rfl

theorem claim_C9_witness :
    (runSearchEvents envIp 500 [(50, "", true)] initialSearchState).results = [] :=
  (claim_C9 envIp 500 0 true initialSearchState).2 [(50, "", true)] (by decide) rfl rfl

/-! ## Row-count and nonemptiness lemmas (C7) -/

/-- The row loop as a filter: a row yields an entry exactly when it has
exactly two cells. -/
theorem rowEntry_eq (r : List Char) :
    rowEntry (parseBlocks tdTag r)
      = if decide ((parseBlocks tdTag r).length = 2) = true
        then some { specification := cleanS ((parseBlocks tdTag r).getD 0 [])
                    value := cleanS ((parseBlocks tdTag r).getD 1 []) }
        else none := by
  rcases h : parseBlocks tdTag r with _ | ⟨c1, _ | ⟨c2, _ | ⟨c3, cs⟩⟩⟩ <;>
    simp [rowEntry, List.getD]

theorem filterMap_if {α β : Type} (p : α → Bool) (g : α → β) (f : α → Option β)
    (hf : ∀ a, f a = if p a then some (g a) else none) :
    ∀ l : List α, l.filterMap f = (l.filter p).map g := by
  intro l
  induction l with
  | nil => simp
  | cons a as ih =>
    rw [List.filterMap_cons, List.filter_cons, hf a]
    cases hp : p a <;> simp [hp, ih]

theorem lookup_insertOrReplace (k : String) (v : List SpecEntry) :
    ∀ (m : SpecMap) (c : String) (l : List SpecEntry),
      (insertOrReplace m k v).lookup c = some l → l = v ∨ m.lookup c = some l := by
  intro m
  induction m with
  | nil =>
    intro c l h
    simp only [insertOrReplace, List.lookup] at h
    split at h
    · exact Or.inl (by cases h; rfl)
    · cases h
  | cons kv rest ih =>
    obtain ⟨k2, v2⟩ := kv
    intro c l h
    simp only [insertOrReplace] at h
    split at h
    · simp only [List.lookup] at h ⊢
      split at h
      · exact Or.inl (by cases h; rfl)
      · exact Or.inr h
    · simp only [List.lookup] at h ⊢
      split at h
      · exact Or.inr h
      · exact ih c l h

/-- Every category that survives `buildSpecMap` keeps a nonempty entry
list. -/
theorem buildSpecMap_nonempty :
    ∀ (blocks : List (List Char × List Char)) (acc : SpecMap),
      (∀ c l, acc.lookup c = some l → l ≠ []) →
      ∀ c l, (buildSpecMap blocks acc).lookup c = some l → l ≠ [] := by
  intro blocks
  induction blocks with
  | nil => intro acc h; exact h
  | cons b rest ih =>
    obtain ⟨hd, t⟩ := b
    intro acc hacc
    simp only [buildSpecMap]
    apply ih
    intro c l hl
    split at hl
    · exact hacc c l hl
    · rename_i hne
      rcases lookup_insertOrReplace (cleanS hd) (rowEntries t) acc c l hl with rfl | h2
      · intro hnil
        rw [hnil] at hne
        simp at hne
      · exact hacc c l h2

/-- C7: a table row with a cell count other than exactly two contributes
no specification entry — the entries of a matched table are exactly the
two-cell rows, cleaned — and every category present in an extracted
mapping has a nonempty entry list, so a category whose table yields zero
valid rows is absent. -/
theorem claim_C7 :
    (∀ tableInner : List Char,
        rowEntries tableInner
          = ((parseBlocks trTag tableInner).filter
                (fun r => (parseBlocks tdTag r).length = 2)).map
              (fun r => { specification := cleanS ((parseBlocks tdTag r).getD 0 [])
                          value := cleanS ((parseBlocks tdTag r).getD 1 []) }))
    ∧ (∀ (content : String) (c : String) (l : List SpecEntry),
        (extractSpecifications content).lookup c = some l → l ≠ []) := by
  constructor
  · intro tableInner
    unfold rowEntries
    exact filterMap_if _ _ _ (fun r => rowEntry_eq r) _
  · intro content c l h
    exact buildSpecMap_nonempty _ [] (by intro c2 l2 h2; cases h2) c l h

theorem claim_C7_witness :
    ([{ specification := "Size", value := "6.1 in" }] : List SpecEntry) ≠ [] :=
  claim_C7.2
    "<h3>Display</h3><figure><table><tr><td>Size</td><td>6.1 in</td></tr></table></figure>"
    "Display" _ (by decide)

/-! ## Figure-tag lemmas (C10)

Every successful match of the extraction pattern consumes the literal
figure opening tag, so a body that nowhere contains that character run
yields no block at all. -/

theorem hasFigureTag_append (pre : List Char) {l : List Char}
    (h : hasFigureTag l = true) : hasFigureTag (pre ++ l) = true := by
  induction pre with
  | nil => simpa
  | cons c cs ih =>
    simp only [List.cons_append, hasFigureTag, Bool.or_eq_true]
    exact Or.inr ih

theorem dropPrefixL_figure_hasTag {l r : List Char}
    (h : dropPrefixL "<figure".toList l = some r) : hasFigureTag l = true := by
  cases l with
  | nil =>
    have : "<figure".toList = ('<' : Char) :: "figure".toList := rfl
    rw [this] at h
    simp [dropPrefixL] at h
  | cons c rest =>
    simp only [hasFigureTag, Bool.or_eq_true]
    exact Or.inl (by rw [h]; rfl)

/-- Whatever `skipWS` keeps is a suffix of its input, so a figure tag
found after skipping whitespace was present before. -/
theorem hasFigureTag_skipWS {l : List Char} (h : hasFigureTag (skipWS l) = true) :
    hasFigureTag l = true := by
  have hdecomp : l.takeWhile isJsWS ++ l.dropWhile isJsWS = l :=
    List.takeWhile_append_dropWhile isJsWS l
  calc hasFigureTag l
      = hasFigureTag (l.takeWhile isJsWS ++ l.dropWhile isJsWS) := by rw [hdecomp]
    _ = true := hasFigureTag_append _ h

theorem pHeadClose_hasFig {l r : List Char} (h : pHeadClose l = some r) :
    hasFigureTag l = true := by
  unfold pHeadClose at h
  split at h
  · rename_i d rest
    split at h
    · rcases hfp : dropPrefixL "<figure".toList (skipWS rest) with _ | r2
      · rw [hfp] at h; cases h
      · have h1 : hasFigureTag rest = true :=
          hasFigureTag_skipWS (dropPrefixL_figure_hasTag hfp)
        have h2 := hasFigureTag_append ['<', '/', 'h', d, '>'] h1
        simpa using h2
    · cases h
  · cases h

theorem gtSearch_split : ∀ {l r : List Char}, gtSearch l = some r → ∃ pre, l = pre ++ r := by
  intro l
  induction l with
  | nil => intro r h; simp [gtSearch] at h
  | cons c cs ih =>
    intro r h
    simp only [gtSearch] at h
    split at h
    · cases h
      exact ⟨[c], rfl⟩
    · obtain ⟨pre, hp⟩ := ih h
      exact ⟨c :: pre, by rw [hp]; rfl⟩

theorem lazyScan_some {α : Type} {p : List Char → Option α} :
    ∀ {l pre : List Char} {a : α}, lazyScan p l = some (pre, a) →
      ∃ s, l = pre ++ s ∧ p s = some a := by
  intro l
  induction l with
  | nil =>
    intro pre a h
    simp only [lazyScan] at h
    split at h
    · rename_i hp0
      cases h
      exact ⟨[], rfl, hp0⟩
    · cases h
  | cons c rest ih =>
    intro pre a h
    simp only [lazyScan] at h
    split at h
    · rename_i hp0
      cases h
      exact ⟨c :: rest, rfl, hp0⟩
    · split at h
      · rename_i pre2 a2 hscan
        cases h
        obtain ⟨s, hs, hp⟩ := ih hscan
        exact ⟨s, by rw [hs]; rfl, hp⟩
      · cases h

theorem pAfterHeading_hasFig {l : List Char} {v : List Char × List Char}
    (h : pAfterHeading l = some v) : hasFigureTag l = true := by
  unfold pAfterHeading at h
  rcases hh : pHeadClose l with _ | r
  · rw [hh] at h; cases h
  · exact pHeadClose_hasFig hh

theorem matchSpecBlock_hasFig {l : List Char} {v : List Char × List Char × List Char}
    (h : matchSpecBlock l = some v) : hasFigureTag l = true := by
  unfold matchSpecBlock at h
  split at h
  · rename_i d rest
    split at h
    · split at h
      · rename_i afterOpen hg
        split at h
        · rename_i heading tbl after hl
          obtain ⟨s, hs, hp⟩ := lazyScan_some hl
          have h1 : hasFigureTag s = true := pAfterHeading_hasFig hp
          have h2 : hasFigureTag afterOpen = true := by
            rw [hs]; exact hasFigureTag_append heading h1
          obtain ⟨pre2, hpre2⟩ := gtSearch_split hg
          have h3 : hasFigureTag rest = true := by
            rw [hpre2]; exact hasFigureTag_append pre2 h2
          have h4 := hasFigureTag_append ['<', 'h', d] h3
          simpa using h4
        · cases h
      · cases h
    · cases h
  · cases h

theorem scanBlocksF_no_figure :
    ∀ (fuel : Nat) (l : List Char), hasFigureTag l = false → scanBlocksF fuel l = [] := by
  intro fuel
  induction fuel with
  | zero => intro l _; rfl
  | succ n ih =>
    intro l hl
    cases l with
    | nil => rfl
    | cons c rest =>
      simp only [scanBlocksF]
      rcases hm : matchSpecBlock (c :: rest) with _ | v
      · apply ih
        simp only [hasFigureTag, Bool.or_eq_false_iff] at hl
        exact hl.2
      · exact absurd (matchSpecBlock_hasFig hm) (by simp [hl])

/-- C10: a heading followed by a bare table, not wrapped in a figure
element, produces no category: any body containing no figure opening tag
extracts to the empty mapping, and in particular the well-formed bare
heading-plus-table body is silently dropped. -/
theorem claim_C10 :
    (∀ body : String, hasFigureTag body.toList = false → extractSpecifications body = [])
    ∧ extractSpecifications
        "<h3>Display</h3><table><tr><td>Size</td><td>6.1 in</td></tr></table>" = [] := by
  constructor
  · intro body h
    unfold extractSpecifications scanBlocks
    rw [scanBlocksF_no_figure _ _ h]
    rfl
  · decide

theorem claim_C10_witness :
    extractSpecifications "<h2>General</h2><table><tr><td>OS</td><td>X</td></tr></table>" = [] :=
  claim_C10.1 _ (by decide)

/-! ## Empty-body lemmas (C8) -/

/-- Looking anything up in the empty specification map yields the
sentinel. -/
theorem getSpecValue_nil (c n : String) : getSpecValue [] c n = "N/A" := rfl

/-! ## Builder lemmas (C2, C3, C8) -/

theorem mem_addName {acc : List String} {n m : String} :
    m ∈ addName acc n ↔ m ∈ acc ∨ m = n := by
  unfold addName
  split
  · rename_i hmem
    constructor
    · exact Or.inl
    · rintro (h2 | rfl)
      · exact h2
      · exact hmem
  · simp

theorem mem_foldl_addName (l : List String) :
    ∀ (acc : List String) (m : String), m ∈ l.foldl addName acc ↔ m ∈ acc ∨ m ∈ l := by
  induction l with
  | nil => simp
  | cons x xs ih =>
    intro acc m
    simp only [List.foldl_cons, ih, mem_addName, List.mem_cons]
    tauto

theorem nodup_addName {acc : List String} (h : acc.Nodup) (n : String) :
    (addName acc n).Nodup := by
  unfold addName
  split
  · exact h
  · rename_i hn
    simp [List.nodup_append, h, hn]

theorem nodup_foldl_addName (l : List String) :
    ∀ acc : List String, acc.Nodup → (l.foldl addName acc).Nodup := by
  induction l with
  | nil => intro acc h; exact h
  | cons x xs ih => intro acc h; exact ih _ (nodup_addName h x)

theorem mem_foldl_collectStep (d1 d2 : SpecMap) (cats : List String) :
    ∀ (acc : List String) (m : String),
      m ∈ cats.foldl (collectStep d1 d2) acc
        ↔ m ∈ acc ∨ ∃ c ∈ cats, m ∈ catNames d1 c ∨ m ∈ catNames d2 c := by
  induction cats with
  | nil => simp
  | cons c cs ih =>
    intro acc m
    simp only [List.foldl_cons, ih, collectStep, mem_foldl_addName, List.mem_cons]
    constructor
    · rintro (((h | h) | h) | ⟨c2, hc2, h⟩)
      · exact Or.inl h
      · exact Or.inr ⟨c, Or.inl rfl, Or.inl h⟩
      · exact Or.inr ⟨c, Or.inl rfl, Or.inr h⟩
      · exact Or.inr ⟨c2, Or.inr hc2, h⟩
    · rintro (h | ⟨c2, (rfl | hc2), h⟩)
      · exact Or.inl (Or.inl (Or.inl h))
      · rcases h with h | h
        · exact Or.inl (Or.inl (Or.inr h))
        · exact Or.inl (Or.inr h)
      · exact Or.inr ⟨c2, hc2, h⟩

theorem nodup_foldl_collectStep (d1 d2 : SpecMap) (cats : List String) :
    ∀ acc : List String, acc.Nodup → (cats.foldl (collectStep d1 d2) acc).Nodup := by
  induction cats with
  | nil => intro acc h; exact h
  | cons c cs ih =>
    intro acc h
    exact ih _ (nodup_foldl_addName _ _ (nodup_foldl_addName _ _ h))

theorem mem_collectNames {d1 d2 : SpecMap} {m : String} :
    m ∈ collectNames d1 d2
      ↔ ∃ c ∈ categoriesList, m ∈ catNames d1 c ∨ m ∈ catNames d2 c := by
  unfold collectNames
  rw [mem_foldl_collectStep]
  simp

theorem nodup_collectNames (d1 d2 : SpecMap) : (collectNames d1 d2).Nodup :=
  nodup_foldl_collectStep d1 d2 categoriesList [] List.nodup_nil

theorem sortedAllSpecs_sorted (d1 d2 : SpecMap) :
    (sortedAllSpecs d1 d2).Sorted (· ≤ ·) :=
  List.sorted_insertionSort _ _

theorem sortedAllSpecs_perm (d1 d2 : SpecMap) :
    List.Perm (sortedAllSpecs d1 d2) (collectNames d1 d2) :=
  List.perm_insertionSort _ _

theorem sortedAllSpecs_nodup (d1 d2 : SpecMap) : (sortedAllSpecs d1 d2).Nodup :=
  ((sortedAllSpecs_perm d1 d2).nodup_iff).mpr (nodup_collectNames d1 d2)

theorem mem_sortedAllSpecs {d1 d2 : SpecMap} {m : String} :
    m ∈ sortedAllSpecs d1 d2
      ↔ ∃ c ∈ categoriesList, m ∈ catNames d1 c ∨ m ∈ catNames d2 c :=
  ((sortedAllSpecs_perm d1 d2).mem_iff).trans mem_collectNames

theorem hasName_iff {m : SpecMap} {c n : String} :
    hasName m c n = true ↔ n ∈ catNames m c := by
  unfold hasName catNames
  simp only [List.any_eq_true, decide_eq_true_eq, List.mem_map]

/-- Membership characterization of the built table: a category appears
with a given row list exactly when it is one of the fixed categories and
the filtered, sorted union of attribute names for it is nonempty, the
rows being its mapped image. -/
theorem mem_renderTable {d1 d2 : SpecMap} {c : String} {rows : List CompRow} :
    (c, rows) ∈ renderComparisonTable d1 d2
      ↔ (c ∈ categoriesList
          ∧ rows = ((sortedAllSpecs d1 d2).filter
                (fun n => hasName d1 c n || hasName d2 c n)).map
              (fun n => { attr := n
                          valueA := getSpecValue d1 c n
                          valueB := getSpecValue d2 c n })
          ∧ ((sortedAllSpecs d1 d2).filter
                (fun n => hasName d1 c n || hasName d2 c n)) ≠ []) := by
  unfold renderComparisonTable
  rw [List.mem_filterMap]
  constructor
  · rintro ⟨a, ha, hfa⟩
    simp only at hfa
    split at hfa
    · cases hfa
    · rename_i hne
      simp only [Option.some.injEq, Prod.mk.injEq] at hfa
      obtain ⟨rfl, rfl⟩ := hfa
      exact ⟨ha, rfl, by simpa [List.isEmpty_iff] using hne⟩
  · rintro ⟨hc, hrows, hne⟩
    refine ⟨c, hc, ?_⟩
    simp only
    rw [if_neg (by simpa [List.isEmpty_iff] using hne)]
    rw [hrows]

theorem map_fst_filterMap_sublist {β : Type} (f : String → Option (String × β))
    (hf : ∀ a p, f a = some p → p.1 = a) :
    ∀ l : List String, ((l.filterMap f).map Prod.fst).Sublist l := by
  intro l
  induction l with
  | nil => simp
  | cons a as ih =>
    rw [List.filterMap_cons]
    cases hfa : f a with
    | none => exact ih.cons a
    | some p =>
      rw [List.map_cons, hf a p hfa]
      exact ih.cons₂ a

/-- The attribute column of an emitted category is exactly the filtered
sorted union. -/
theorem renderTable_attrs {d1 d2 : SpecMap} {c : String} {rows : List CompRow}
    (hmem : (c, rows) ∈ renderComparisonTable d1 d2) :
    rows.map CompRow.attr
      = (sortedAllSpecs d1 d2).filter (fun n => hasName d1 c n || hasName d2 c n) := by
  obtain ⟨hc, hrowseq, hne⟩ := mem_renderTable.mp hmem
  rw [hrowseq, List.map_map]
  exact List.map_id _

/-- C2: the built table lists categories only in the fixed hardcoded
order (its category column is a sublist of the fixed list); a category
outside that list never appears; within each emitted category the rows
are the lexicographically sorted, duplicate-free attribute names present
in either device for that category; and a category with no entry in
either device is omitted. -/
theorem claim_C2 (d1 d2 : SpecMap) :
    ((renderComparisonTable d1 d2).map Prod.fst).Sublist categoriesList
    ∧ (∀ c, c ∉ categoriesList → c ∉ (renderComparisonTable d1 d2).map Prod.fst)
    ∧ (∀ c rows, (c, rows) ∈ renderComparisonTable d1 d2 →
        (rows.map CompRow.attr).Sorted (· ≤ ·)
        ∧ (rows.map CompRow.attr).Nodup
        ∧ ∀ n, n ∈ rows.map CompRow.attr ↔ (hasName d1 c n || hasName d2 c n) = true)
    ∧ (∀ c, (∀ n, hasName d1 c n = false ∧ hasName d2 c n = false) →
        c ∉ (renderComparisonTable d1 d2).map Prod.fst) := by
  have hsub : ((renderComparisonTable d1 d2).map Prod.fst).Sublist categoriesList := by
    unfold renderComparisonTable
    apply map_fst_filterMap_sublist
    intro a p hfa
    simp only at hfa
    split at hfa
    · cases hfa
    · cases hfa; rfl
  refine ⟨hsub, ?_, ?_, ?_⟩
  · intro c hc hmem
    exact hc (hsub.subset hmem)
  · intro c rows hmem
    have hc : c ∈ categoriesList := (mem_renderTable.mp hmem).1
    rw [renderTable_attrs hmem]
    refine ⟨(sortedAllSpecs_sorted d1 d2).filter _, (sortedAllSpecs_nodup d1 d2).filter _, ?_⟩
    intro n
    rw [List.mem_filter]
    constructor
    · intro h
      exact h.2
    · intro h
      refine ⟨?_, h⟩
      rcases Bool.or_eq_true _ _ |>.mp h with h1 | h1
      · exact mem_sortedAllSpecs.mpr ⟨c, hc, Or.inl (hasName_iff.mp h1)⟩
      · exact mem_sortedAllSpecs.mpr ⟨c, hc, Or.inr (hasName_iff.mp h1)⟩
  · intro c hall hmem
    obtain ⟨⟨c2, rows⟩, hmem2, heq⟩ := List.mem_map.mp hmem
    simp only at heq
    subst heq
    obtain ⟨hc, hrowseq, hne⟩ := mem_renderTable.mp hmem2
    obtain ⟨n, hn⟩ := List.exists_mem_of_ne_nil _ hne
    have := (List.mem_filter.mp hn).2
    rcases Bool.or_eq_true _ _ |>.mp this with h1 | h1
    · rw [(hall n).1] at h1; cases h1
    · rw [(hall n).2] at h1; cases h1

/-- A concrete one-category specification map used by witnesses. -/
def dDisplayA : SpecMap := [("Display", [{ specification := "Size", value := "6.1 in" }])]

theorem claim_C2_witness :
    "Zzz" ∉ (renderComparisonTable dDisplayA []).map Prod.fst :=
  (claim_C2 dDisplayA []).2.1 "Zzz" (by decide)

/-- The union of names is insensitive to the argument order: the sorted
lists agree element for element. -/
theorem sortedAllSpecs_comm (d1 d2 : SpecMap) :
    sortedAllSpecs d2 d1 = sortedAllSpecs d1 d2 := by
  apply List.eq_of_perm_of_sorted ?_ (sortedAllSpecs_sorted d2 d1) (sortedAllSpecs_sorted d1 d2)
  apply (List.perm_ext_iff_of_nodup (sortedAllSpecs_nodup d2 d1) (sortedAllSpecs_nodup d1 d2)).mpr
  intro a
  rw [mem_sortedAllSpecs, mem_sortedAllSpecs]
  constructor
  · rintro ⟨c, hc, h | h⟩
    · exact ⟨c, hc, Or.inr h⟩
    · exact ⟨c, hc, Or.inl h⟩
  · rintro ⟨c, hc, h | h⟩
    · exact ⟨c, hc, Or.inr h⟩
    · exact ⟨c, hc, Or.inl h⟩

/-- C3: swapping the two specification maps leaves the category order
and, per category, the attribute row order unchanged; only the two value
columns exchange places. -/
theorem claim_C3 (d1 d2 : SpecMap) :
    renderComparisonTable d2 d1
      = (renderComparisonTable d1 d2).map
          (fun p => (p.1, p.2.map (fun r =>
            { attr := r.attr, valueA := r.valueB, valueB := r.valueA }))) := by
  unfold renderComparisonTable
  rw [List.map_filterMap]
  apply List.filterMap_congr
  intro c _
  simp only [sortedAllSpecs_comm d1 d2]
  have hpred : (fun n => hasName d2 c n || hasName d1 c n)
      = (fun n => hasName d1 c n || hasName d2 c n) := by
    funext n
    exact Bool.or_comm _ _
  rw [hpred]
  cases hif : ((sortedAllSpecs d1 d2).filter
      (fun n => hasName d1 c n || hasName d2 c n)).isEmpty
  · simp only [hif, Bool.false_eq_true, if_false, Option.map_some']
    rw [List.map_map]
    rfl
  · simp only [hif, if_true]
    rfl

/-- C8: extraction never fails — the empty body and a malformed body
both yield the empty mapping — and a device with an empty body
contributes only the sentinel value in every cell of any comparison it
participates in, on either side. -/
theorem claim_C8 :
    extractSpecifications "" = []
    ∧ extractSpecifications "<h2>Broken<figure><table>" = []
    ∧ (∀ (d1 : SpecMap) (c : String) (rows : List CompRow) (r : CompRow),
        (c, rows) ∈ renderComparisonTable d1 (extractSpecifications "") →
        r ∈ rows → r.valueB = "N/A")
    ∧ (∀ (d2 : SpecMap) (c : String) (rows : List CompRow) (r : CompRow),
        (c, rows) ∈ renderComparisonTable (extractSpecifications "") d2 →
        r ∈ rows → r.valueA = "N/A") := by
  have hempty : extractSpecifications "" = [] := rfl
  refine ⟨hempty, by decide, ?_, ?_⟩
  · intro d1 c rows r hmem hr
    rw [hempty] at hmem
    obtain ⟨_, hrowseq, _⟩ := mem_renderTable.mp hmem
    rw [hrowseq] at hr
    obtain ⟨n, _, rfl⟩ := List.mem_map.mp hr
    exact getSpecValue_nil c n
  · intro d2 c rows r hmem hr
    rw [hempty] at hmem
    obtain ⟨_, hrowseq, _⟩ := mem_renderTable.mp hmem
    rw [hrowseq] at hr
    obtain ⟨n, _, rfl⟩ := List.mem_map.mp hr
    exact getSpecValue_nil c n

theorem claim_C8_witness :
    ({ attr := "Size", valueA := "6.1 in", valueB := "N/A" } : CompRow).valueB = "N/A" :=
  claim_C8.2.2.1 dDisplayA "Display"
    [{ attr := "Size", valueA := "6.1 in", valueB := "N/A" }]
    { attr := "Size", valueA := "6.1 in", valueB := "N/A" }
    (by decide) (by decide)

end CompareApp
